import Mathlib

/-!
Shallow embedding of the news-filtering pipeline of `src/filter.py`:
`preprocess_vietnamese_text`, `check_keyword_match`, `exclude_negative`,
`categorize_positive`, `sort_and_limit` and `filter_and_select`.

Modelling conventions:
* An article dictionary is a record of its five text fields plus an optional
  publish time.  Missing text fields (`article.get('title', '')` etc.) are the
  empty string; a missing `publish_time` is `none`.
* Timestamps are natural numbers; `datetime.min` (the fallback used by the
  sort key `x.get('publish_time') or datetime.min...`) is `0`, the least value.
* A Python dict (category → bucket, in insertion order) is an association
  list `List (String × _)`; Python dicts iterate in insertion order, which the
  association list reproduces positionally.
* `sort_and_limit` mutates its dict argument in place (it rebinds every
  bucket).  The embedding therefore returns a pair: the returned list and the
  final state of the dict.
* The tokenizer branch of `preprocess_vietnamese_text` is modelled in its
  guaranteed-fallback mode (`UNDERTHESEA_AVAILABLE = False`): plain
  lowercasing, which is the behaviour the spec designates as the fallback.
* The `while` loop of the round-robin selection is modelled with explicit
  fuel `limit + 1`.  Each loop iteration that recurses has appended at least
  one article and the loop stops as soon as `limit` articles are selected, so
  `limit + 1` rounds are never exhausted; `round_robin_fuel_stable` below
  proves the result does not change with any larger fuel.
-/

structure Article where
  title : String
  summary : String
  full_content : String
  url : String
  publish_time : Option Nat
  source : String
deriving Repr, DecidableEq

/-- Embedding of `preprocess_vietnamese_text` (filter.py lines 16-41) on the
fallback path: empty text maps to empty text, otherwise lowercase.  Lowercase
is written as mapping `Char.toLower` over the characters (what
`String.toLower` does), in a form the kernel can evaluate. -/
def preprocess_vietnamese_text (text : String) : String :=
  if text = "" then "" else String.mk (text.data.map Char.toLower)

/-- Decides whether `pat` is an initial segment of `hay` (helper for the
Python substring test `in`). -/
def begWith : List Char → List Char → Bool
  | [], _ => true
  | _ :: _, [] => false
  | p :: ps, q :: qs => p == q && begWith ps qs

/-- Decides whether `pat` occurs contiguously inside `hay`: the semantics of
Python's `needle in haystack` on strings. -/
def hasSub : List Char → List Char → Bool
  | [], pat => begWith pat []
  | c :: t, pat => begWith pat (c :: t) || hasSub t pat

/-- String form of `hasSub`: Python's `kw in hay`. -/
def strContains (hay kw : String) : Bool :=
  hasSub hay.data kw.data

/-- Embedding of `check_keyword_match` (filter.py lines 44-67): false on empty
text or empty keyword list, otherwise true iff some preprocessed keyword is a
substring of the preprocessed text. -/
def check_keyword_match (text : String) (keywords : List String) : Bool :=
  if text = "" ∨ keywords = [] then false
  else keywords.any fun keyword =>
    strContains (preprocess_vietnamese_text text) (preprocess_vietnamese_text keyword)

/-- Embedding of `exclude_negative` (filter.py lines 70-100): identity when
the keyword list is empty, otherwise keeps the articles whose
`title ++ " " ++ summary` matches no negative keyword. -/
def exclude_negative (articles : List Article) (negative_keywords : List String) :
    List Article :=
  if negative_keywords = [] then articles
  else articles.filter fun article =>
    !check_keyword_match (article.title ++ " " ++ article.summary) negative_keywords

/-- Embedding of `categorize_positive` (filter.py lines 103-132): one bucket
per category, in mapping order, holding the articles whose
`title ++ " " ++ summary ++ " " ++ full_content` matches a keyword of the
category. -/
def categorize_positive (articles : List Article)
    (positive_keywords : List (String × List String)) :
    List (String × List Article) :=
  positive_keywords.map fun ck =>
    (ck.1, articles.filter fun article =>
      check_keyword_match
        (article.title ++ " " ++ article.summary ++ " " ++ article.full_content) ck.2)

/-- Sort key used twice in `sort_and_limit`
(`x.get('publish_time') or datetime.min.replace(...)`): a present timestamp,
with `datetime.min` embedded as `0` for an absent one. -/
def keyTime (article : Article) : Nat :=
  article.publish_time.getD 0

/-- The URL-dedup loop body of `sort_and_limit` (filter.py lines 149-156 and
187-193) with the running `seen_urls` set made explicit: an article is kept
iff its url is non-empty (truthy) and not seen before. -/
def dedupURLFrom (seen : List String) : List Article → List Article
  | [] => []
  | article :: rest =>
    if article.url ≠ "" ∧ article.url ∉ seen then
      article :: dedupURLFrom (article.url :: seen) rest
    else
      dedupURLFrom seen rest

/-- The URL-dedup pass of `sort_and_limit`, starting from an empty
`seen_urls` set.  The same code appears twice in the source (per category and
on the merged selection); both occurrences are this function. -/
def dedupURL (articles : List Article) : List Article :=
  dedupURLFrom [] articles

/-- Stable descending insertion used by `sortDesc`: `a` goes in front of the
first element whose key is strictly smaller, staying behind earlier-listed
articles of equal key. -/
def insertDesc (a : Article) : List Article → List Article
  | [] => [a]
  | b :: bs => if keyTime b ≤ keyTime a then a :: b :: bs else b :: insertDesc a bs

/-- Stable descending sort by `keyTime`: the embedding of Python's stable
`list.sort(key=..., reverse=True)` used at filter.py lines 160-163 and 196.
Any stable sort computes the same list, so insertion sort is used. -/
def sortDesc : List Article → List Article
  | [] => []
  | a :: rest => insertDesc a (sortDesc rest)

/-- The per-category dedup pass of `sort_and_limit` (filter.py lines 147-156):
every bucket of the dict is rebound to its URL-deduplicated version. -/
def dedupPass (categorized : List (String × List Article)) :
    List (String × List Article) :=
  categorized.map fun cb => (cb.1, dedupURL cb.2)

/-- The per-category sort pass of `sort_and_limit` (filter.py lines 158-163):
every bucket is sorted newest-first. -/
def sortPass (categorized : List (String × List Article)) :
    List (String × List Article) :=
  categorized.map fun cb => (cb.1, sortDesc cb.2)

/-- One sweep of the `for category, articles in categorized_articles.items()`
loop (filter.py lines 172-180).  State: per category, its (already deduped and
sorted) bucket and its cursor `category_indices[category]`.  Returns the new
state, the grown selection, and the `added_in_round` flag.  The sweep breaks
as soon as the selection reaches `limit`, leaving later cursors untouched. -/
def sweep (limit : Nat) :
    List (List Article × Nat) → List Article →
      List (List Article × Nat) × List Article × Bool
  | [], sel => ([], sel, false)
  | (arts, i) :: rest, sel =>
    if limit ≤ sel.length then ((arts, i) :: rest, sel, false)
    else if h : i < arts.length then
      let r := sweep limit rest (sel ++ [arts.get ⟨i, h⟩])
      ((arts, i + 1) :: r.1, r.2.1, true)
    else
      let r := sweep limit rest sel
      ((arts, i) :: r.1, r.2.1, r.2.2)

/-- The `while len(selected_articles) < limit` loop of `sort_and_limit`
(filter.py lines 169-184), with explicit fuel: loop while the selection is
short of `limit` and the last sweep added something. -/
def round_robin_loop : Nat → Nat → List (List Article × Nat) → List Article → List Article
  | 0, _, _, sel => sel
  | fuel + 1, limit, state, sel =>
    if sel.length < limit then
      let r := sweep limit state sel
      if r.2.2 then round_robin_loop fuel limit r.1 r.2.1 else r.2.1
    else sel

/-- Embedding of `sort_and_limit` (filter.py lines 135-198).  Returns the
final list and, second, the state of the `categorized_articles` dict after
the call (the source rebinds every bucket of its argument in place, so the
dict a caller retains is the deduped-and-sorted mapping, not the original). -/
def sort_and_limit (categorized_articles : List (String × List Article))
    (limit : Nat) : List Article × List (String × List Article) :=
  let m := sortPass (dedupPass categorized_articles)
  let selected_articles := round_robin_loop (limit + 1) limit (m.map fun cb => (cb.2, 0)) []
  let final_articles := sortDesc (dedupURL selected_articles)
  (final_articles.take limit, m)

/-- Embedding of `filter_and_select` (filter.py lines 201-223): negative
filter, then positive categorization, then `sort_and_limit`; the pipeline
returns the selected list. -/
def filter_and_select (articles : List Article)
    (positive_keywords : List (String × List String))
    (negative_keywords : List String) (limit : Nat) : List Article :=
  (sort_and_limit (categorize_positive (exclude_negative articles negative_keywords)
    positive_keywords) limit).1

/-- Sample article with an empty url, used by concrete witnesses and
counterexamples below, as are the following sample articles. -/
def artNoUrl : Article := ⟨"Tin khong url", "tom tat", "", "", some 3, "vnexpress"⟩

def artDup : Article := ⟨"dup", "s", "", "http://e/dup", some 3, "src"⟩

def artBad : Article := ⟨"Bad news today", "summary", "", "http://e/bad", some 9, "src"⟩

def artAny : Article := ⟨"Hello", "World", "", "http://e/any", some 2, "src"⟩

def artU1 : Article := ⟨"keep", "s", "", "http://e/u1", some 7, "src"⟩

def artU1b : Article := ⟨"later dup", "s", "", "http://e/u1", some 9, "src"⟩

def wA1 : Article := ⟨"a1", "", "", "http://e/a1", some 7, "s"⟩

def wA2 : Article := ⟨"a2", "", "", "http://e/a2", some 7, "s"⟩

def wA3 : Article := ⟨"a3", "", "", "http://e/a3", some 7, "s"⟩

def wB1 : Article := ⟨"b1", "", "", "http://e/b1", some 7, "s"⟩

def wB2 : Article := ⟨"b2", "", "", "http://e/b2", some 7, "s"⟩

def wB3 : Article := ⟨"b3", "", "", "http://e/b3", some 7, "s"⟩

/-! Lemmas about the URL-deduplication pass. -/

theorem mem_dedupURLFrom {a : Article} :
    ∀ {l : List Article} {seen : List String}, a ∈ dedupURLFrom seen l →
      a ∈ l ∧ a.url ≠ "" ∧ a.url ∉ seen := by
  intro l
  induction l with
  | nil => intro seen h; simp [dedupURLFrom] at h
  | cons x rest ih =>
    intro seen h
    rw [dedupURLFrom] at h
    split at h
    · rename_i hc
      rcases List.mem_cons.mp h with rfl | hmem
      · exact ⟨List.mem_cons_self _ _, hc.1, hc.2⟩
      · have h2 := ih hmem
        exact ⟨List.mem_cons_of_mem _ h2.1, h2.2.1,
          fun hs => h2.2.2 (List.mem_cons_of_mem _ hs)⟩
    · have h2 := ih h
      exact ⟨List.mem_cons_of_mem _ h2.1, h2.2⟩

theorem dedupURLFrom_sublist : ∀ (l : List Article) (seen : List String),
    (dedupURLFrom seen l).Sublist l := by
  intro l
  induction l with
  | nil => intro seen; simp [dedupURLFrom]
  | cons x rest ih =>
    intro seen
    rw [dedupURLFrom]
    split
    · exact (ih _).cons₂ x
    · exact (ih _).cons x

theorem dedupURLFrom_pairwise : ∀ (l : List Article) (seen : List String),
    (dedupURLFrom seen l).Pairwise (fun a b => a.url ≠ b.url) := by
  intro l
  induction l with
  | nil => intro seen; simp [dedupURLFrom]
  | cons x rest ih =>
    intro seen
    rw [dedupURLFrom]
    split
    · refine List.Pairwise.cons ?_ (ih _)
      intro b hb he
      have h2 := mem_dedupURLFrom hb
      exact h2.2.2 (by rw [he]; exact List.mem_cons_self _ _)
    · exact ih _

theorem dedupURLFrom_eq_self : ∀ (l : List Article) (seen : List String),
    (∀ a ∈ l, a.url ≠ "" ∧ a.url ∉ seen) →
    l.Pairwise (fun a b => a.url ≠ b.url) →
    dedupURLFrom seen l = l := by
  intro l
  induction l with
  | nil => intro seen _ _; rfl
  | cons x rest ih =>
    intro seen hall hpw
    have hx := hall x (List.mem_cons_self _ _)
    rw [dedupURLFrom, if_pos hx]
    congr 1
    refine ih _ ?_ hpw.of_cons
    intro b hb
    have hbb := hall b (List.mem_cons_of_mem _ hb)
    refine ⟨hbb.1, ?_⟩
    intro hmem
    rcases List.mem_cons.mp hmem with he | hs
    · exact (List.rel_of_pairwise_cons hpw hb) he.symm
    · exact hbb.2 hs

theorem dedupURLFrom_keeps_first : ∀ (l : List Article) (seen : List String) (a : Article),
    a ∈ l → a.url ≠ "" → a.url ∉ seen →
    ∃ b ∈ dedupURLFrom seen l, b.url = a.url := by
  intro l
  induction l with
  | nil => intro seen a ha _ _; simp at ha
  | cons x rest ih =>
    intro seen a ha hne hns
    by_cases hx : x.url ≠ "" ∧ x.url ∉ seen
    · rw [dedupURLFrom, if_pos hx]
      by_cases he : x.url = a.url
      · exact ⟨x, List.mem_cons_self _ _, he⟩
      · rcases List.mem_cons.mp ha with rfl | ha2
        · exact absurd rfl he
        · obtain ⟨b, hb, hbe⟩ := ih (x.url :: seen) a ha2 hne (by
            intro hmem
            rcases List.mem_cons.mp hmem with h1 | h2
            · exact he h1.symm
            · exact hns h2)
          exact ⟨b, List.mem_cons_of_mem _ hb, hbe⟩
    · rw [dedupURLFrom, if_neg hx]
      rcases List.mem_cons.mp ha with rfl | ha2
      · exact absurd ⟨hne, hns⟩ hx
      · exact ih seen a ha2 hne hns

/-! Lemmas about the stable descending sort. -/

theorem insertDesc_perm (a : Article) : ∀ (l : List Article), (insertDesc a l).Perm (a :: l) := by
  intro l
  induction l with
  | nil => exact List.Perm.refl _
  | cons b bs ih =>
    rw [insertDesc]
    split
    · exact List.Perm.refl _
    · exact (List.Perm.cons b ih).trans (List.Perm.swap a b bs)

theorem sortDesc_perm : ∀ (l : List Article), (sortDesc l).Perm l := by
  intro l
  induction l with
  | nil => exact List.Perm.refl _
  | cons a rest ih =>
    rw [sortDesc]
    exact (insertDesc_perm a (sortDesc rest)).trans (List.Perm.cons a ih)

theorem insertDesc_sorted (a : Article) : ∀ {l : List Article},
    l.Pairwise (fun x y => keyTime y ≤ keyTime x) →
    (insertDesc a l).Pairwise (fun x y => keyTime y ≤ keyTime x) := by
  intro l
  induction l with
  | nil => intro _; simp [insertDesc]
  | cons b bs ih =>
    intro h
    rw [insertDesc]
    split
    · rename_i hba
      refine List.Pairwise.cons ?_ h
      intro c hc
      rcases List.mem_cons.mp hc with rfl | hcb
      · exact hba
      · exact le_trans (List.rel_of_pairwise_cons h hcb) hba
    · rename_i hba
      refine List.Pairwise.cons ?_ (ih h.of_cons)
      intro c hc
      rcases List.mem_cons.mp ((insertDesc_perm a bs).mem_iff.mp hc) with rfl | hcb
      · exact le_of_not_le hba
      · exact List.rel_of_pairwise_cons h hcb

theorem sortDesc_sorted : ∀ (l : List Article),
    (sortDesc l).Pairwise (fun x y => keyTime y ≤ keyTime x) := by
  intro l
  induction l with
  | nil => simp [sortDesc]
  | cons a rest ih =>
    rw [sortDesc]
    exact insertDesc_sorted a ih

theorem insertDesc_eq_cons (a : Article) : ∀ (l : List Article),
    (∀ b ∈ l, keyTime b ≤ keyTime a) → insertDesc a l = a :: l := by
  intro l hall
  cases l with
  | nil => rfl
  | cons b bs => rw [insertDesc, if_pos (hall b (List.mem_cons_self _ _))]

theorem sortDesc_eq_self : ∀ (l : List Article),
    l.Pairwise (fun x y => keyTime y ≤ keyTime x) → sortDesc l = l := by
  intro l
  induction l with
  | nil => intro _; rfl
  | cons a rest ih =>
    intro h
    rw [sortDesc, ih h.of_cons]
    exact insertDesc_eq_cons a rest (fun b hb => List.rel_of_pairwise_cons h hb)

/-! Lemmas about the round-robin selection loop. -/

theorem sweep_buckets (limit : Nat) : ∀ (state : List (List Article × Nat)) (sel : List Article),
    ((sweep limit state sel).1).map Prod.fst = state.map Prod.fst := by
  intro state
  induction state with
  | nil => intro sel; rfl
  | cons p rest ih =>
    intro sel
    obtain ⟨arts, i⟩ := p
    rw [sweep]
    split
    · rfl
    · split
      · simp [ih]
      · simp [ih]

theorem sweep_mem (limit : Nat) : ∀ (state : List (List Article × Nat)) (sel : List Article)
    (a : Article), a ∈ (sweep limit state sel).2.1 →
      a ∈ sel ∨ ∃ p ∈ state, a ∈ p.1 := by
  intro state
  induction state with
  | nil => intro sel a h; exact Or.inl h
  | cons p rest ih =>
    intro sel a h
    obtain ⟨arts, i⟩ := p
    rw [sweep] at h
    split at h
    · exact Or.inl h
    · split at h
      · rename_i hlt
        simp only [] at h
        rcases ih (sel ++ [arts.get ⟨i, hlt⟩]) a h with hin | ⟨q, hq, hqa⟩
        · rcases List.mem_append.mp hin with h1 | h2
          · exact Or.inl h1
          · refine Or.inr ⟨(arts, i), List.mem_cons_self _ _, ?_⟩
            have he : a = arts.get ⟨i, hlt⟩ := by simpa using h2
            rw [he]
            exact List.get_mem arts i hlt
        · exact Or.inr ⟨q, List.mem_cons_of_mem _ hq, hqa⟩
      · simp only [] at h
        rcases ih sel a h with hin | ⟨q, hq, hqa⟩
        · exact Or.inl hin
        · exact Or.inr ⟨q, List.mem_cons_of_mem _ hq, hqa⟩

theorem sweep_length_le (limit : Nat) : ∀ (state : List (List Article × Nat)) (sel : List Article),
    sel.length ≤ (sweep limit state sel).2.1.length := by
  intro state
  induction state with
  | nil => intro sel; exact le_refl _
  | cons p rest ih =>
    intro sel
    obtain ⟨arts, i⟩ := p
    rw [sweep]
    split
    · exact le_refl _
    · split
      · rename_i hlt
        calc sel.length ≤ (sel ++ [arts.get ⟨i, hlt⟩]).length := by simp
          _ ≤ _ := ih _
      · exact ih sel

theorem sweep_added_length (limit : Nat) : ∀ (state : List (List Article × Nat))
    (sel : List Article), (sweep limit state sel).2.2 = true →
    sel.length < (sweep limit state sel).2.1.length := by
  intro state
  induction state with
  | nil => intro sel h; simp [sweep] at h
  | cons p rest ih =>
    intro sel h
    obtain ⟨arts, i⟩ := p
    rw [sweep] at h ⊢
    by_cases h1 : limit ≤ sel.length
    · rw [if_pos h1] at h
      simp at h
    · rw [if_neg h1] at h ⊢
      by_cases h2 : i < arts.length
      · rw [dif_pos h2]
        calc sel.length < (sel ++ [arts.get ⟨i, h2⟩]).length := by simp
          _ ≤ _ := sweep_length_le limit rest _
      · rw [dif_neg h2] at h ⊢
        exact ih sel h

theorem round_robin_mem : ∀ (fuel limit : Nat) (state : List (List Article × Nat))
    (sel : List Article) (a : Article), a ∈ round_robin_loop fuel limit state sel →
      a ∈ sel ∨ ∃ p ∈ state, a ∈ p.1 := by
  intro fuel
  induction fuel with
  | zero => intro limit state sel a h; exact Or.inl h
  | succ f ih =>
    intro limit state sel a h
    rw [round_robin_loop] at h
    split at h
    · simp only [] at h
      split at h
      · rcases ih limit _ _ a h with h1 | ⟨q, hq, hqa⟩
        · exact sweep_mem limit state sel a h1
        · have hmap := sweep_buckets limit state sel
          have hq1 : q.1 ∈ state.map Prod.fst := by
            rw [← hmap]
            exact List.mem_map_of_mem Prod.fst hq
          obtain ⟨p, hp, hpe⟩ := List.mem_map.mp hq1
          refine Or.inr ⟨p, hp, ?_⟩
          rw [hpe]
          exact hqa
      · exact sweep_mem limit state sel a h
    · exact Or.inl h

theorem round_robin_fuel_stable : ∀ (fuel limit : Nat) (state : List (List Article × Nat))
    (sel : List Article), limit + 1 ≤ sel.length + fuel →
    round_robin_loop (fuel + 1) limit state sel = round_robin_loop fuel limit state sel := by
  intro fuel
  induction fuel with
  | zero =>
    intro limit state sel h
    have hge : ¬ sel.length < limit := by omega
    simp only [round_robin_loop]
    rw [if_neg hge]
  | succ f ih =>
    intro limit state sel h
    simp only [round_robin_loop]
    by_cases hlt : sel.length < limit
    · rw [if_pos hlt, if_pos hlt]
      by_cases hadd : (sweep limit state sel).2.2 = true
      · rw [if_pos hadd, if_pos hadd]
        refine ih limit _ _ ?_
        have hgrow := sweep_added_length limit state sel hadd
        omega
      · rw [if_neg hadd, if_neg hadd]
    · rw [if_neg hlt, if_neg hlt]

/-- Fuel faithfulness: the fuel `limit + 1` used by `sort_and_limit` is never
the reason the loop stops; any larger fuel computes the same selection, so the
fuel-free Python `while` loop is modelled exactly. -/
theorem round_robin_fuel_ge (limit : Nat) (state : List (List Article × Nat)) :
    ∀ k, round_robin_loop (limit + 1 + k) limit state [] =
      round_robin_loop (limit + 1) limit state [] := by
  intro k
  induction k with
  | zero => rfl
  | succ n ih =>
    have h1 : limit + 1 + (n + 1) = (limit + 1 + n) + 1 := by omega
    rw [h1, round_robin_fuel_stable (limit + 1 + n) limit state []
      (by simp only [List.length_nil]; omega)]
    exact ih

/-- The state of the dict after the two in-place passes of `sort_and_limit`:
each bucket rebound to the sorted form of its deduplicated form. -/
theorem passes_eq (m : List (String × List Article)) :
    sortPass (dedupPass m) = m.map fun cb => (cb.1, sortDesc (dedupURL cb.2)) := by
  simp [sortPass, dedupPass, List.map_map, Function.comp]

theorem sort_and_limit_mem (m : List (String × List Article)) (limit : Nat) (a : Article)
    (h : a ∈ (sort_and_limit m limit).1) : ∃ cb ∈ m, a ∈ cb.2 := by
  simp only [sort_and_limit] at h
  have h1 := List.mem_of_mem_take h
  have h2 := (sortDesc_perm _).mem_iff.mp h1
  have h3 := (dedupURLFrom_sublist _ _).subset h2
  rcases round_robin_mem (limit + 1) limit _ [] a h3 with hnil | ⟨p, hp, hpa⟩
  · cases hnil
  · obtain ⟨cb, hcb, hcbe⟩ := List.mem_map.mp hp
    rw [passes_eq] at hcb
    obtain ⟨cb0, hcb0, hcb0e⟩ := List.mem_map.mp hcb
    refine ⟨cb0, hcb0, ?_⟩
    have ha2 : a ∈ cb.2 := by
      rw [← hcbe] at hpa
      exact hpa
    rw [← hcb0e] at ha2
    exact (dedupURLFrom_sublist _ _).subset ((sortDesc_perm _).mem_iff.mp ha2)

/-- Empty search pattern: the empty string is a substring of every character
list, as Python's `"" in s` is always true. -/
theorem hasSub_nil : ∀ (hay : List Char), hasSub hay [] = true := by
  intro hay
  cases hay <;> rfl

/-- C6: with an empty negative-keyword list, `exclude_negative` is the
identity: it returns its input article list itself, dropping nothing and
preserving input order. -/
theorem C6_exclude_negative_identity (articles : List Article) :
    exclude_negative articles [] = articles := rfl

/-- C7: the keys of the mapping returned by `categorize_positive` are exactly
the keys of the input mapping, in the same order (hence equal as a set), so
every category is present even when its bucket is empty; and a category
configured with zero keywords yields the empty bucket. -/
theorem C7_categorize_keys (articles : List Article)
    (positive_keywords : List (String × List String)) :
    (categorize_positive articles positive_keywords).map Prod.fst =
      positive_keywords.map Prod.fst ∧
    ∀ p ∈ positive_keywords, p.2 = [] →
      (p.1, ([] : List Article)) ∈ categorize_positive articles positive_keywords := by
  refine ⟨?_, ?_⟩
  · simp [categorize_positive, List.map_map, Function.comp]
  · intro p hp hpe
    have hmem : (p.1, articles.filter fun article =>
        check_keyword_match
          (article.title ++ " " ++ article.summary ++ " " ++ article.full_content) p.2) ∈
        categorize_positive articles positive_keywords := by
      simp only [categorize_positive]
      exact List.mem_map_of_mem _ hp
    have hfil : (articles.filter fun article =>
        check_keyword_match
          (article.title ++ " " ++ article.summary ++ " " ++ article.full_content) p.2) = [] := by
      rw [hpe]
      exact List.filter_eq_nil_iff.mpr (fun a _ => by simp [check_keyword_match])
    rw [hfil] at hmem
    exact hmem

/-- Witness for C7 at a concrete input: a mapping with one zero-keyword
category keeps its key and gets an empty bucket. -/
theorem C7_witness :
    ((categorize_positive [artAny] [("economy", [])]).map Prod.fst =
      [("economy", ([] : List String))].map Prod.fst) ∧
    ("economy", ([] : List Article)) ∈ categorize_positive [artAny] [("economy", [])] :=
  ⟨(C7_categorize_keys [artAny] [("economy", [])]).1,
   (C7_categorize_keys [artAny] [("economy", [])]).2 ("economy", []) (by decide) rfl⟩

/-- C8: the URL deduplication pass (used per category and on the final merged
selection) is idempotent: running it on its own output changes nothing. -/
theorem C8_dedup_idempotent (l : List Article) :
    dedupURL (dedupURL l) = dedupURL l := by
  simp only [dedupURL]
  refine dedupURLFrom_eq_self _ _ ?_ (dedupURLFrom_pairwise l [])
  intro a ha
  exact ⟨(mem_dedupURLFrom ha).2.1, by simp⟩

/-- C10: whenever the empty string occurs among the keywords, the combined
text `title ++ " " ++ summary` built by `exclude_negative` is non-empty (it
contains the separating space) and the empty keyword is a substring of it, so
`check_keyword_match` accepts every article and `exclude_negative` returns the
empty list on every article list. -/
theorem C10_empty_string_keyword (keywords : List String) (hk : "" ∈ keywords) :
    (∀ title summary : String,
      check_keyword_match (title ++ " " ++ summary) keywords = true) ∧
    ∀ articles : List Article, exclude_negative articles keywords = [] := by
  have hkne : keywords ≠ [] := by
    intro he
    rw [he] at hk
    cases hk
  have hmatch : ∀ title summary : String,
      check_keyword_match (title ++ " " ++ summary) keywords = true := by
    intro title summary
    have hne : title ++ " " ++ summary ≠ "" := by
      intro he
      have hlen : (title ++ " " ++ summary).length = 0 := by rw [he]; rfl
      rw [String.length_append, String.length_append] at hlen
      have hsp : (" " : String).length = 1 := rfl
      rw [hsp] at hlen
      omega
    rw [check_keyword_match, if_neg (not_or.mpr ⟨hne, hkne⟩)]
    refine List.any_eq_true.mpr ⟨"", hk, ?_⟩
    exact hasSub_nil _
  refine ⟨hmatch, ?_⟩
  intro articles
  rw [exclude_negative, if_neg hkne]
  refine List.filter_eq_nil_iff.mpr ?_
  intro a _
  simp [hmatch a.title a.summary]

/-- Witness for C10 at a concrete input: the keyword list containing only the
empty string matches a concrete title and summary and empties a concrete
article list. -/
theorem C10_witness :
    check_keyword_match ("Hello" ++ " " ++ "World") [""] = true ∧
    exclude_negative [artAny] [""] = [] :=
  ⟨(C10_empty_string_keyword [""] (by decide)).1 "Hello" "World",
   (C10_empty_string_keyword [""] (by decide)).2 [artAny]⟩

/-- C3: an article whose combined `title ++ " " ++ summary` matches at least
one negative keyword survives the negative filter in no pipeline: it is in no
category bucket that `categorize_positive` builds from the negatively filtered
list, and not in the final output of `filter_and_select`. -/
theorem C3_negative_never_in_output (articles : List Article)
    (positive_keywords : List (String × List String))
    (negative_keywords : List String) (limit : Nat) (a : Article)
    (hmatch : check_keyword_match (a.title ++ " " ++ a.summary) negative_keywords = true) :
    (∀ cb ∈ categorize_positive (exclude_negative articles negative_keywords)
        positive_keywords, a ∉ cb.2) ∧
    a ∉ filter_and_select articles positive_keywords negative_keywords limit := by
  have hkne : negative_keywords ≠ [] := by
    intro he
    rw [he] at hmatch
    simp [check_keyword_match] at hmatch
  have hnotf : a ∉ exclude_negative articles negative_keywords := by
    rw [exclude_negative, if_neg hkne]
    intro hmem
    have h2 := (List.mem_filter.mp hmem).2
    rw [hmatch] at h2
    simp at h2
  have hbucket : ∀ cb ∈ categorize_positive (exclude_negative articles negative_keywords)
      positive_keywords, a ∉ cb.2 := by
    intro cb hcb hmem
    simp only [categorize_positive] at hcb
    obtain ⟨ck, hck, hcke⟩ := List.mem_map.mp hcb
    rw [← hcke] at hmem
    exact hnotf (List.mem_filter.mp hmem).1
  refine ⟨hbucket, ?_⟩
  intro hout
  obtain ⟨cb, hcb, hmem⟩ := sort_and_limit_mem _ limit a hout
  exact hbucket cb hcb hmem

/-- Witness for C3 at a concrete input: an article whose title holds the
negative keyword "bad" lands in no bucket and not in the output. -/
theorem C3_witness :
    (∀ cb ∈ categorize_positive (exclude_negative [artBad] ["bad"]) [("tech", ["news"])],
      artBad ∉ cb.2) ∧
    artBad ∉ filter_and_select [artBad] [("tech", ["news"])] ["bad"] 5 :=
  C3_negative_never_in_output [artBad] [("tech", ["news"])] ["bad"] 5 artBad (by decide)

/-- C4: the list returned by `sort_and_limit` never exceeds `limit` articles
(limit zero and the empty mapping both give the empty list), and no two of its
articles share the same non-empty url. -/
theorem C4_limit_and_unique_urls (m : List (String × List Article)) (limit : Nat) :
    (sort_and_limit m limit).1.length ≤ limit ∧
    (sort_and_limit m 0).1 = [] ∧
    (sort_and_limit ([] : List (String × List Article)) limit).1 = [] ∧
    (sort_and_limit m limit).1.Pairwise (fun a b => a.url = b.url → a.url = "") := by
  have hemp : round_robin_loop (limit + 1) limit [] [] = [] := by
    rw [round_robin_loop]
    split
    · simp [sweep]
    · rfl
  refine ⟨?_, ?_, ?_, ?_⟩
  · simp only [sort_and_limit]
    rw [List.length_take]
    exact min_le_left _ _
  · rfl
  · simp [sort_and_limit, sortPass, dedupPass, hemp, dedupURL, dedupURLFrom, sortDesc]
  · simp only [sort_and_limit]
    have hd := dedupURLFrom_pairwise (round_robin_loop (limit + 1) limit
      ((sortPass (dedupPass m)).map fun cb => (cb.2, 0)) []) []
    have hsd := ((sortDesc_perm _).pairwise_iff
      (fun {x y : Article} (h : x.url ≠ y.url) => Ne.symm h)).mpr hd
    have htk := List.Pairwise.sublist (List.take_sublist limit _) hsd
    exact htk.imp (fun h he => absurd he h)

/-- C5: the final list of `sort_and_limit`, hence of `filter_and_select`, is
sorted descending by the publish-time key, under which an absent
`publish_time` is the minimum possible value and therefore never sorts before
any timestamped article. -/
theorem C5_output_sorted_desc (m : List (String × List Article))
    (articles : List Article) (positive_keywords : List (String × List String))
    (negative_keywords : List String) (limit : Nat) :
    ((sort_and_limit m limit).1).Pairwise (fun a b => keyTime b ≤ keyTime a) ∧
    (filter_and_select articles positive_keywords negative_keywords limit).Pairwise
      (fun a b => keyTime b ≤ keyTime a) ∧
    ∀ (title summary fc url src : String) (b : Article),
      keyTime ⟨title, summary, fc, url, none, src⟩ ≤ keyTime b := by
  have key : ∀ (mm : List (String × List Article)) (lim : Nat),
      ((sort_and_limit mm lim).1).Pairwise (fun a b => keyTime b ≤ keyTime a) := by
    intro mm lim
    simp only [sort_and_limit]
    exact List.Pairwise.sublist (List.take_sublist _ _) (sortDesc_sorted _)
  exact ⟨key m limit, key _ limit, fun _ _ _ _ _ b => Nat.zero_le _⟩

/-- C1 counterexample: an article with an empty url is not retained by the
deduplication pass — the per-category pass drops it and the whole of
`sort_and_limit` returns nothing for a bucket holding only that article,
refuting the claim that every empty-url article is kept as distinct. -/
theorem C1_counterexample :
    artNoUrl.url = "" ∧ dedupURL [artNoUrl] = [] ∧
    (sort_and_limit [("cat", [artNoUrl])] 5).1 = [] := by
  decide

/-- First occurrences survive the dedup loop: for any non-empty url not yet
in `seen_urls`, the first article carrying it in the output of the loop is the
first article carrying it in the input. -/
theorem dedupURLFrom_find : ∀ (l : List Article) (seen : List String) (u : String),
    u ≠ "" → u ∉ seen →
    (dedupURLFrom seen l).find? (fun b => b.url == u) = l.find? (fun b => b.url == u) := by
  intro l
  induction l with
  | nil => intro seen u _ _; rfl
  | cons x rest ih =>
    intro seen u hu hus
    by_cases hx : x.url ≠ "" ∧ x.url ∉ seen
    · rw [dedupURLFrom, if_pos hx]
      by_cases he : x.url = u
      · have hpos : ∀ (l' : List Article),
            List.find? (fun b => b.url == u) (x :: l') = some x :=
          fun l' => List.find?_cons_of_pos l' (by simp [he])
        rw [hpos, hpos]
      · have hneg : ∀ (l' : List Article),
            List.find? (fun b => b.url == u) (x :: l') = List.find? (fun b => b.url == u) l' :=
          fun l' => List.find?_cons_of_neg l' (by simp [he])
        rw [hneg, hneg]
        exact ih (x.url :: seen) u hu (by
          intro hmem
          rcases List.mem_cons.mp hmem with h1 | h2
          · exact he h1.symm
          · exact hus h2)
    · rw [dedupURLFrom, if_neg hx]
      have hxu : x.url ≠ u := by
        push_neg at hx
        by_cases hxe : x.url = ""
        · intro h2
          exact hu (h2.symm.trans hxe)
        · intro h2
          exact hus (h2 ▸ hx hxe)
      have hneg : ∀ (l' : List Article),
          List.find? (fun b => b.url == u) (x :: l') = List.find? (fun b => b.url == u) l' :=
        fun l' => List.find?_cons_of_neg l' (by simp [hxu])
      rw [hneg]
      exact ih seen u hu hus

/-- C1 (amended): each deduplication pass (the per-category pass and the
final pass inside `sort_and_limit` are both `dedupURL`) returns a subsequence
of its input in first-seen order in which every article has a non-empty url —
articles with an empty or missing url are dropped outright, not kept as
distinct — the kept urls are pairwise distinct, and the survivor for each
non-empty url is exactly the FIRST input article carrying that url: for every
non-empty url, the first (by pairwise distinctness, the only) article with
that url in the output is the first article with that url in the input.
Together with the sublist conjunct this pins the output down to the
subsequence of first occurrences of the distinct non-empty urls. -/
theorem C1_amended_dedup_drops_empty_url (l : List Article) :
    (dedupURL l).Sublist l ∧
    (∀ a ∈ dedupURL l, a.url ≠ "") ∧
    (dedupURL l).Pairwise (fun a b => a.url ≠ b.url) ∧
    (∀ a ∈ l, a.url ≠ "" → ∃ b ∈ dedupURL l, b.url = a.url) ∧
    (∀ u : String, u ≠ "" →
      (dedupURL l).find? (fun b => b.url == u) = l.find? (fun b => b.url == u)) :=
  ⟨dedupURLFrom_sublist l [],
   fun a ha => (mem_dedupURLFrom ha).2.1,
   dedupURLFrom_pairwise l [],
   fun a ha hne => dedupURLFrom_keeps_first l [] a ha hne (by simp),
   fun u hu => dedupURLFrom_find l [] u hu (by simp)⟩

/-- Witness for C1's amended statement at a concrete input holding a
duplicated url and an empty-url article: the result is a subsequence, the
kept article has a non-empty url which survives, and the survivor of the
duplicated url is the first of its two carriers. -/
theorem C1_witness :
    (dedupURL [artU1, artNoUrl, artU1b]).Sublist [artU1, artNoUrl, artU1b] ∧
    artU1.url ≠ "" ∧
    (∃ b ∈ dedupURL [artU1, artNoUrl, artU1b], b.url = artU1.url) ∧
    (dedupURL [artU1, artNoUrl, artU1b]).find? (fun b => b.url == "http://e/u1") =
      [artU1, artNoUrl, artU1b].find? (fun b => b.url == "http://e/u1") :=
  ⟨(C1_amended_dedup_drops_empty_url [artU1, artNoUrl, artU1b]).1,
   (C1_amended_dedup_drops_empty_url [artU1, artNoUrl, artU1b]).2.1 artU1 (by decide),
   (C1_amended_dedup_drops_empty_url [artU1, artNoUrl, artU1b]).2.2.2.1 artU1
     (by decide) (by decide),
   (C1_amended_dedup_drops_empty_url [artU1, artNoUrl, artU1b]).2.2.2.2 "http://e/u1"
     (by decide)⟩

/-- C2 counterexample: `sort_and_limit` does mutate its mapping argument — a
bucket holding the same url twice is rebound to a one-element list, so the
dict state after the call differs from the input mapping. -/
theorem C2_counterexample :
    (sort_and_limit [("cat", [artDup, artDup])] 5).2 ≠ [("cat", [artDup, artDup])] := by
  decide

/-- C2 (amended): `sort_and_limit` rebinds, in place, every bucket of the
mapping it is given to a fresh list, the URL-deduplicated and
descending-sorted version of the original bucket; the keys and their order
survive unchanged.  The original bucket lists are not themselves written to —
they are replaced wholesale — but a caller retaining the mapping observes the
new buckets. -/
theorem C2_amended_mapping_mutated (m : List (String × List Article)) (limit : Nat) :
    (sort_and_limit m limit).2 = (m.map fun cb => (cb.1, sortDesc (dedupURL cb.2))) ∧
    ((sort_and_limit m limit).2).map Prod.fst = m.map Prod.fst := by
  have h1 : (sort_and_limit m limit).2 = sortPass (dedupPass m) := rfl
  rw [h1, passes_eq]
  refine ⟨rfl, ?_⟩
  rw [List.map_map]
  rfl

/-- C9: for a mapping of exactly two categories whose buckets each hold three
articles, all six with pairwise-distinct non-empty urls and the same publish
time, `sort_and_limit` with limit 4 picks two from each bucket, interleaved by
the round-robin sweep — not three from one and one from the other. -/
theorem C9_round_robin_two_each (a1 a2 a3 b1 b2 b3 : Article) (c1 c2 : String) (t : Nat)
    (hurl : List.Pairwise (fun a b => a.url ≠ b.url) [a1, a2, a3, b1, b2, b3])
    (hne : ∀ a ∈ [a1, a2, a3, b1, b2, b3], a.url ≠ "")
    (ht : ∀ a ∈ [a1, a2, a3, b1, b2, b3], a.publish_time = some t) :
    (sort_and_limit [(c1, [a1, a2, a3]), (c2, [b1, b2, b3])] 4).1 = [a1, b1, a2, b2] := by
  simp only [List.pairwise_cons, List.mem_cons, List.not_mem_nil, or_false,
    forall_eq_or_imp, forall_eq, false_implies, implies_true, and_true,
    List.Pairwise.nil] at hurl
  simp only [List.mem_cons, List.not_mem_nil, or_false, forall_eq_or_imp, forall_eq] at hne ht
  obtain ⟨⟨h12, h13, h1b1, h1b2, h1b3⟩, ⟨h23, h2b1, h2b2, h2b3⟩, ⟨h3b1, h3b2, h3b3⟩,
    ⟨hb12, hb13⟩, hb23⟩ := hurl
  obtain ⟨hn1, hn2, hn3, hm1, hm2, hm3⟩ := hne
  obtain ⟨ht1, ht2, ht3, hu1, hu2, hu3⟩ := ht
  have hd1 : dedupURL [a1, a2, a3] = [a1, a2, a3] := by
    refine dedupURLFrom_eq_self _ _ ?_ ?_
    · intro a ha
      rcases List.mem_cons.mp ha with rfl | ha
      · exact ⟨hn1, by simp⟩
      rcases List.mem_cons.mp ha with rfl | ha
      · exact ⟨hn2, by simp⟩
      rcases List.mem_cons.mp ha with rfl | ha
      · exact ⟨hn3, by simp⟩
      cases ha
    · simp only [List.pairwise_cons, List.mem_cons, List.not_mem_nil, or_false,
        forall_eq_or_imp, forall_eq, false_implies, implies_true, and_true,
        List.Pairwise.nil]
      exact ⟨⟨h12, h13⟩, h23⟩
  have hd2 : dedupURL [b1, b2, b3] = [b1, b2, b3] := by
    refine dedupURLFrom_eq_self _ _ ?_ ?_
    · intro a ha
      rcases List.mem_cons.mp ha with rfl | ha
      · exact ⟨hm1, by simp⟩
      rcases List.mem_cons.mp ha with rfl | ha
      · exact ⟨hm2, by simp⟩
      rcases List.mem_cons.mp ha with rfl | ha
      · exact ⟨hm3, by simp⟩
      cases ha
    · simp only [List.pairwise_cons, List.mem_cons, List.not_mem_nil, or_false,
        forall_eq_or_imp, forall_eq, false_implies, implies_true, and_true,
        List.Pairwise.nil]
      exact ⟨⟨hb12, hb13⟩, hb23⟩
  have hs1 : sortDesc [a1, a2, a3] = [a1, a2, a3] := by
    refine sortDesc_eq_self _ ?_
    simp only [List.pairwise_cons, List.mem_cons, List.not_mem_nil, or_false,
      forall_eq_or_imp, forall_eq, false_implies, implies_true, and_true,
      List.Pairwise.nil, keyTime, ht1, ht2, ht3]
    simp
  have hs2 : sortDesc [b1, b2, b3] = [b1, b2, b3] := by
    refine sortDesc_eq_self _ ?_
    simp only [List.pairwise_cons, List.mem_cons, List.not_mem_nil, or_false,
      forall_eq_or_imp, forall_eq, false_implies, implies_true, and_true,
      List.Pairwise.nil, keyTime, hu1, hu2, hu3]
    simp
  have hm : sortPass (dedupPass [(c1, [a1, a2, a3]), (c2, [b1, b2, b3])]) =
      [(c1, [a1, a2, a3]), (c2, [b1, b2, b3])] := by
    simp [sortPass, dedupPass, hd1, hd2, hs1, hs2]
  have hsel : round_robin_loop (4 + 1) 4 [([a1, a2, a3], 0), ([b1, b2, b3], 0)] [] =
      [a1, b1, a2, b2] := rfl
  have hd3 : dedupURL [a1, b1, a2, b2] = [a1, b1, a2, b2] := by
    refine dedupURLFrom_eq_self _ _ ?_ ?_
    · intro a ha
      rcases List.mem_cons.mp ha with rfl | ha
      · exact ⟨hn1, by simp⟩
      rcases List.mem_cons.mp ha with rfl | ha
      · exact ⟨hm1, by simp⟩
      rcases List.mem_cons.mp ha with rfl | ha
      · exact ⟨hn2, by simp⟩
      rcases List.mem_cons.mp ha with rfl | ha
      · exact ⟨hm2, by simp⟩
      cases ha
    · simp only [List.pairwise_cons, List.mem_cons, List.not_mem_nil, or_false,
        forall_eq_or_imp, forall_eq, false_implies, implies_true, and_true,
        List.Pairwise.nil]
      exact ⟨⟨h1b1, h12, h1b2⟩, ⟨fun he => h2b1 he.symm, hb12⟩, h2b2⟩
  have hs3 : sortDesc [a1, b1, a2, b2] = [a1, b1, a2, b2] := by
    refine sortDesc_eq_self _ ?_
    simp only [List.pairwise_cons, List.mem_cons, List.not_mem_nil, or_false,
      forall_eq_or_imp, forall_eq, false_implies, implies_true, and_true,
      List.Pairwise.nil, keyTime, ht1, ht2, hu1, hu2]
    simp
  simp only [sort_and_limit, hm, List.map_cons, List.map_nil]
  rw [hsel, hd3, hs3]
  rfl

/-- Witness for C9 at a concrete input: six sample articles with distinct
urls and equal publish times, limit 4, give two per category interleaved. -/
theorem C9_witness :
    (sort_and_limit [("tech", [wA1, wA2, wA3]), ("econ", [wB1, wB2, wB3])] 4).1 =
      [wA1, wB1, wA2, wB2] :=
  C9_round_robin_two_each wA1 wA2 wA3 wB1 wB2 wB3 "tech" "econ" 7
    (by decide) (by decide) (by decide)
